import Mathlib

/-!
Verification development for the `codeowners` crate (`src/lib.rs`).

The Rust source is shallowly embedded: strings are `List Char`, the
`glob::Pattern` type and its matcher are modelled token-for-token after the
`glob` crate (v0.3) that the crate links against, fallible operations
(`Pattern::new(..).unwrap()`) are modelled with `Option`, and bounded
recursion that Rust expresses with loops is expressed with an explicit fuel
argument whose initial value strictly exceeds the recursion depth.
-/

namespace Codeowners

instance {ε α : Type} [DecidableEq ε] [DecidableEq α] : DecidableEq (Except ε α) := fun
  | .ok a, .ok b =>
    match decEq a b with
    | isTrue h => isTrue (by rw [h])
    | isFalse h => isFalse (by intro hh; cases hh; exact h rfl)
  | .ok _, .error _ => isFalse (by intro h; cases h)
  | .error _, .ok _ => isFalse (by intro h; cases h)
  | .error e, .error f =>
    match decEq e f with
    | isTrue h => isTrue (by rw [h])
    | isFalse h => isFalse (by intro hh; cases hh; exact h rfl)

/-- Unicode `White_Space` property, the set used by Rust's
`char::is_whitespace` and by the regex class `\s`. -/
def rustIsWs (c : Char) : Bool :=
  let n := c.toNat
  (0x09 ≤ n && n ≤ 0x0D) || n == 0x20 || n == 0x85 || n == 0xA0 ||
    n == 0x1680 || (0x2000 ≤ n && n ≤ 0x200A) || n == 0x2028 ||
    n == 0x2029 || n == 0x202F || n == 0x205F || n == 0x3000

/-- The `Owner` enum from `src/lib.rs`: username, team or email, each
carrying the raw token text. -/
inductive Owner where
  | username (s : List Char)
  | team (s : List Char)
  | email (s : List Char)
deriving DecidableEq, Repr

/-- `impl fmt::Display for Owner`: render the stored inner string. -/
def ownerDisplay : Owner → List Char
  | .username u => u
  | .team t => t
  | .email e => e

/-- True when the list starts with a non-whitespace character
(the regex fragment `\S` applied at the head). -/
def headNonWs : List Char → Bool
  | [] => false
  | c :: _ => !rustIsWs c

/-- Scan a run of non-whitespace characters for a `/` that is followed by a
non-whitespace character.  Together with one leading non-whitespace
character this is exactly the regex `\S+/\S+` anchored at the scan start. -/
def slashScan : List Char → Bool
  | [] => false
  | c :: rest => !rustIsWs c && ((c == '/' && headNonWs rest) || slashScan rest)

/-- The regex `^@\S+/\S+` (the `TEAM` classifier of `Owner::from_str`). -/
def teamMatch : List Char → Bool
  | '@' :: c :: rest => !rustIsWs c && slashScan rest
  | _ => false

/-- The regex `^@\S+` (the `USERNAME` classifier of `Owner::from_str`). -/
def usernameMatch : List Char → Bool
  | '@' :: t => headNonWs t
  | _ => false

/-- Scan a run of non-whitespace characters for an `@` that is followed by a
non-whitespace character (regex fragment `\S*@\S`, within one run). -/
def atScan : List Char → Bool
  | [] => false
  | c :: rest => !rustIsWs c && ((c == '@' && headNonWs rest) || atScan rest)

/-- The regex `^\S+@\S+` (the `EMAIL` classifier of `Owner::from_str`). -/
def emailMatch : List Char → Bool
  | [] => false
  | c :: rest => !rustIsWs c && atScan rest

/-- `Owner::from_str`: try `TEAM`, then `USERNAME`, then `EMAIL`, first
match wins; otherwise `Err("not an owner")`. -/
def ownerFromStr (s : List Char) : Except (List Char) Owner :=
  if teamMatch s then .ok (.team s)
  else if usernameMatch s then .ok (.username s)
  else if emailMatch s then .ok (.email s)
  else .error ("not an owner".toList)

example : ownerFromStr "@user".toList = .ok (.username "@user".toList) := by decide
example : ownerFromStr "@org/team".toList = .ok (.team "@org/team".toList) := by decide
example : ownerFromStr "user@domain.com".toList = .ok (.email "user@domain.com".toList) := by
  decide
example : ownerFromStr "bogus".toList = .error "not an owner".toList := by decide
example : ownerFromStr "@".toList = .error "not an owner".toList := by decide

/-- Character specifiers inside a `[...]` glob class (`glob::CharSpecifier`). -/
inductive CharSpec where
  | single (c : Char)
  | range (a b : Char)
deriving DecidableEq, Repr

/-- Tokens of a compiled glob pattern (`glob::PatternToken`). -/
inductive GlobToken where
  | char (c : Char)
  | anyChar
  | anySeq
  | anyRec
  | anyWithin (cs : List CharSpec)
  | anyExcept (cs : List CharSpec)
deriving DecidableEq, Repr

/-- `glob::parse_char_specifiers`: `a-b` forms a range when at least three
characters remain, otherwise characters are taken singly. -/
def parseCharSpecs : List Char → List CharSpec
  | a :: '-' :: b :: rest => .range a b :: parseCharSpecs rest
  | a :: rest => .single a :: parseCharSpecs rest
  | [] => []

/-- Push an `AnyRecursiveSequence` token onto the (reversed) accumulator,
collapsing consecutive ones exactly as `Pattern::new` does: the push is
skipped only when the accumulator has more than one token and its most
recent token is already `AnyRecursiveSequence`. -/
def pushRec (acc : List GlobToken) : List GlobToken :=
  match acc with
  | .anyRec :: rest => if rest.isEmpty then .anyRec :: acc else acc
  | _ => .anyRec :: acc

/-- The body of `glob::Pattern::new`.  `prevOk` records whether the scan is
at the start of the pattern or just after a `/` (the positions where a
recursive `**` wildcard may legally begin); `acc` holds the tokens emitted
so far, most recent first.  `none` models `PatternError`.  The fuel always
exceeds the input length, and at least one character is consumed per call,
so the `0` case is unreachable from `globParse`. -/
def globParseAux : Nat → Bool → List GlobToken → List Char → Option (List GlobToken)
  | 0, _, _, _ => none
  | fuel + 1, prevOk, acc, input =>
    match input with
    | [] => some acc.reverse
    | '?' :: rest => globParseAux fuel false (.anyChar :: acc) rest
    | '*' :: '*' :: '*' :: _ => none
    | '*' :: '*' :: rest =>
      if prevOk then
        match rest with
        | [] => some (pushRec acc).reverse
        | '/' :: rest2 => globParseAux fuel true (pushRec acc) rest2
        | _ => none
      else none
    | '*' :: rest => globParseAux fuel false (.anySeq :: acc) rest
    | '[' :: '!' :: c2 :: rest2 =>
      if rest2.isEmpty then none
      else
        match rest2.findIdx? (fun c => c == ']') with
        | none => none
        | some j =>
          globParseAux fuel false
            (.anyExcept (parseCharSpecs (c2 :: rest2.take j)) :: acc)
            (rest2.drop (j + 1))
    | '[' :: c1 :: rest3 =>
      if c1 == '!' || rest3.isEmpty then none
      else
        match rest3.findIdx? (fun c => c == ']') with
        | none => none
        | some j =>
          globParseAux fuel false
            (.anyWithin (parseCharSpecs (c1 :: rest3.take j)) :: acc)
            (rest3.drop (j + 1))
    | '[' :: [] => none
    | c :: rest => globParseAux fuel (c == '/') (.char c :: acc) rest

/-- `glob::Pattern::new`: tokenize a pattern string, `none` on error. -/
def globParse (l : List Char) : Option (List GlobToken) :=
  globParseAux (l.length + 1) true [] l

/-- The string normalization performed by the crate's `pattern` function
before the glob is compiled: unanchored patterns get a `**/` depth
prefix, leading `/` characters are trimmed (`trim_start_matches('/')`
removes them repeatedly), and a trailing `/` gets a `**` suffix. -/
def normalizePattern (path : List Char) : List Char :=
  let prefixed :=
    match path with
    | '*' :: _ => path
    | '/' :: _ => path
    | _ => '*' :: '*' :: '/' :: path
  let normalized := prefixed.dropWhile (fun c => c == '/')
  if normalized.getLast? == some '/' then normalized ++ ['*', '*'] else normalized

/-- A compiled `glob::Pattern`: the normalized source text (`as_str`)
together with its token list. -/
structure GPattern where
  original : List Char
  tokens : List GlobToken
deriving DecidableEq, Repr

/-- The crate's `pattern` function: normalize then compile.  The Rust code
unwraps the `Pattern::new` result and so aborts on a glob error; that
abort is modelled by `none`. -/
def pattern (path : List Char) : Option GPattern :=
  let n := normalizePattern path
  (globParse n).map (fun ts => ⟨n, ts⟩)

example : normalizePattern "docs/*".toList = "**/docs/*".toList := by decide
example : normalizePattern "/build/".toList = "build/**".toList := by decide
example : pattern "***".toList = none := by decide
example :
    pattern "foo/bar".toList =
      some ⟨"**/foo/bar".toList,
        [.anyRec, .char 'f', .char 'o', .char 'o', .char '/',
          .char 'b', .char 'a', .char 'r']⟩ := by decide

/-- The options record passed to `Pattern::matches_path_with`. -/
structure MatchOptions where
  caseSensitive : Bool
  requireLiteralSeparator : Bool
  requireLiteralLeadingDot : Bool
deriving DecidableEq, Repr

/-- Boolean code-point comparison of characters (Rust `c >= a` / `c <= b`). -/
def charLe (a b : Char) : Bool := Nat.ble a.toNat b.toNat

/-- Rust `char::is_ascii`. -/
def isAsciiChar (c : Char) : Bool := Nat.ble c.toNat 0x7F

/-- `glob::chars_eq` on a non-Windows target: ASCII-case-insensitive when
requested, plain equality otherwise. -/
def charsEq (caseSensitive : Bool) (a b : Char) : Bool :=
  if !caseSensitive && isAsciiChar a && isAsciiChar b then
    a.toLower == b.toLower
  else a == b

/-- `glob::in_char_specifiers`: membership of a character in a `[...]`
class, including the quirk that ranges compare case-insensitively only
when both (lowercased) endpoints are cased ASCII letters. -/
def inCharSpecs (caseSensitive : Bool) : List CharSpec → Char → Bool
  | [], _ => false
  | .single sc :: rest, c =>
    charsEq caseSensitive c sc || inCharSpecs caseSensitive rest c
  | .range a b :: rest, c =>
    (if !caseSensitive && isAsciiChar c && isAsciiChar a && isAsciiChar b then
       let a2 := a.toLower
       let b2 := b.toLower
       if a2 != a2.toUpper && b2 != b2.toUpper then
         charLe a2 c.toLower && charLe c.toLower b2
       else false
     else false)
    || (charLe a c && charLe c b) || inCharSpecs caseSensitive rest c

/-- Whether a single non-wildcard token accepts character `c`
(the `!match *token { ... }` test inside `matches_from`); `fs` is the
`follows_separator` flag.  Wildcard sequence tokens never reach here. -/
def tokenMatchesChar (opts : MatchOptions) (fs : Bool) (tok : GlobToken) (c : Char) : Bool :=
  match tok with
  | .anyChar | .anyWithin _ | .anyExcept _ =>
    if (opts.requireLiteralSeparator && c == '/') ||
        (fs && opts.requireLiteralLeadingDot && c == '.') then false
    else
      match tok with
      | .anyWithin cs => inCharSpecs opts.caseSensitive cs c
      | .anyExcept cs => !inCharSpecs opts.caseSensitive cs c
      | _ => true
  | .char c2 => charsEq opts.caseSensitive c c2
  | _ => false

/-- The three-valued result of `glob`'s `matches_from`. -/
inductive MatchResult where
  | matched
  | subNoMatch
  | entireNoMatch
deriving DecidableEq, Repr

mutual

/-- `glob`'s `matches_from`, with `fs` the `follows_separator` flag.  The
`for` loop over tokens becomes recursion; the `while` loop a wildcard
token runs over the remaining file characters is `starLoop`.  Fuel is
decremented once per call; callers supply fuel strictly exceeding the
recursion depth, so the `0` case is unreachable from `matchesWith`. -/
def matchesFrom (opts : MatchOptions) : Nat → Bool → List GlobToken → List Char → MatchResult
  | 0, _, _, _ => .entireNoMatch
  | fuel + 1, fs, tokens, file =>
    match tokens with
    | [] => if file.isEmpty then .matched else .subNoMatch
    | tok :: rest =>
      match tok with
      | .anySeq | .anyRec =>
        match matchesFrom opts fuel fs rest file with
        | .subNoMatch => starLoop opts fuel fs (tok == .anyRec) rest file
        | m => m
      | _ =>
        match file with
        | [] => .entireNoMatch
        | c :: file2 =>
          if tokenMatchesChar opts fs tok c then
            matchesFrom opts fuel (c == '/') rest file2
          else .subNoMatch

/-- The `while let Some(c) = file.next()` loop inside `matches_from` for an
`AnySequence`/`AnyRecursiveSequence` token (`isRec` tells which).  When the
file runs out the Rust loop falls through to the next iteration of the
token loop with the exhausted file, i.e. to `matchesFrom` on `rest`. -/
def starLoop (opts : MatchOptions) : Nat → Bool → Bool → List GlobToken → List Char → MatchResult
  | 0, _, _, _, _ => .entireNoMatch
  | fuel + 1, fs, _, rest, [] => matchesFrom opts fuel fs rest []
  | fuel + 1, fs, isRec, rest, c :: file2 =>
    if fs && opts.requireLiteralLeadingDot && c == '.' then .subNoMatch
    else
      let fs2 := c == '/'
      if isRec && !fs2 then starLoop opts fuel fs2 isRec rest file2
      else if !isRec && opts.requireLiteralSeparator && fs2 then .subNoMatch
      else
        match matchesFrom opts fuel fs2 rest file2 with
        | .subNoMatch => starLoop opts fuel fs2 isRec rest file2
        | m => m

end

/-- `Pattern::matches_with` (and `matches_path_with`, since the crate only
queries string-convertible paths): run `matches_from` from the start of
the token list, `follows_separator` initially true.  The fuel bound
`2*(tokens+1)*(file+1)+1` strictly exceeds the call depth, which
decreases lexicographically in (remaining tokens, remaining file). -/
def GPattern.matchesWith (pat : GPattern) (opts : MatchOptions) (file : List Char) : Bool :=
  matchesFrom opts (2 * (pat.tokens.length + 1) * (file.length + 1) + 1) true pat.tokens file
    == .matched

/-- Remove the trailing run of `/` characters. -/
def dropTrailSlash (l : List Char) : List Char :=
  (l.reverse.dropWhile (fun c => c == '/')).reverse

/-- Remove the trailing run of non-`/` characters (the last component). -/
def dropLastComp (l : List Char) : List Char :=
  (l.reverse.dropWhile (fun c => c != '/')).reverse

/-- Rust `Path::parent` for slash-delimited paths: `none` for the empty
path and for the root, otherwise the path with its last component and the
separators before it removed (the root `/` is kept when the path was
absolute).  Paths with `.`/`..` components are not distinguished, as the
crate's queries are plain relative paths. -/
def parentPath (p : List Char) : Option (List Char) :=
  if p.all (fun c => c == '/') then none
  else
    let q := dropTrailSlash p
    let r := dropTrailSlash (dropLastComp q)
    if r.isEmpty && p.head? == some '/' then some ['/'] else some r

/-- The `while let Some(parent) = p.parent()` ancestor walk in `Owners::of`:
succeed on the first ancestor the pattern matches.  Each `parentPath` step
shortens the path, so fuel `|path| + 1` is never exhausted. -/
def impliedLoop (pat : GPattern) (opts : MatchOptions) : Nat → List Char → Bool
  | 0, _ => false
  | fuel + 1, p =>
    match parentPath p with
    | none => false
    | some par => pat.matchesWith opts par || impliedLoop pat opts fuel par

/-- Whether some strict ancestor of `path` matches the pattern. -/
def impliedAncestor (pat : GPattern) (opts : MatchOptions) (path : List Char) : Bool :=
  impliedLoop pat opts (path.length + 1) path

/-- Rust `str::ends_with("/*")`. -/
def endsWithSlashStar (l : List Char) : Bool :=
  match l.reverse with
  | '*' :: '/' :: _ => true
  | _ => false

/-- The parsed rule table (`struct Owners`): a location label and the rule
triples (line number, pattern, owners), stored last-declared first. -/
structure Owners where
  location : List Char
  paths : List (Nat × GPattern × List Owner)
deriving DecidableEq, Repr

/-- The `MatchOptions` that `Owners::of` builds for a pattern:
case-insensitive, literal separators required exactly when the pattern
text contains `/`. -/
def matchOptsFor (pat : GPattern) : MatchOptions :=
  ⟨false, pat.original.contains '/', false⟩

/-- The closure `Owners::of` applies to each stored rule: direct match
first; a pattern ending in `/*` never matches via ancestors; otherwise
try the ancestor walk. -/
def ruleOf (path : List Char) (entry : Nat × GPattern × List Owner) : Option (List Owner) :=
  let pat := entry.2.1
  let owners := entry.2.2
  let opts := matchOptsFor pat
  if pat.matchesWith opts path then some owners
  else if endsWithSlashStar pat.original then none
  else if impliedAncestor pat opts path then some owners
  else none

/-- `Owners::of`: the owner list of the first stored rule that matches. -/
def Owners.of (o : Owners) (path : List Char) : Option (List Owner) :=
  o.paths.findSome? (ruleOf path)

/-- Split a character stream at `'\n'` (always at least one part; a
trailing newline yields a final empty part). -/
def splitNL : List Char → List (List Char)
  | [] => [[]]
  | '\n' :: rest => [] :: splitNL rest
  | c :: rest =>
    match splitNL rest with
    | [] => [[c]]
    | l :: ls => (c :: l) :: ls

/-- Strip one trailing `'\r'` if present. -/
def stripOneCR (l : List Char) : List Char :=
  if l.getLast? == some '\r' then l.dropLast else l

/-- `BufRead::lines` on an in-memory stream: split at `'\n'`, strip a
single `'\r'` from each newline-terminated line, keep a final
unterminated chunk as-is, and produce no line for it when empty. -/
def rustLines (text : List Char) : List (List Char) :=
  let parts := splitNL text
  parts.dropLast.map stripOneCR ++
    (match parts.getLast? with
     | some [] => []
     | some last => [last]
     | none => [])

/-- Accumulator-based worker for `str::split_whitespace`; `acc` holds the
current token reversed. -/
def splitWsAux : List Char → List Char → List (List Char)
  | acc, [] => if acc.isEmpty then [] else [acc.reverse]
  | acc, c :: rest =>
    if rustIsWs c then
      if acc.isEmpty then splitWsAux [] rest
      else acc.reverse :: splitWsAux [] rest
    else splitWsAux (c :: acc) rest

/-- `str::split_whitespace`: maximal non-whitespace runs, no empty tokens. -/
def splitWs (l : List Char) : List (List Char) := splitWsAux [] l

/-- The line filter in `from_reader`: keep lines that are non-empty and do
not start with `#`. -/
def lineFilter (l : List Char) : Bool := !l.isEmpty && !(l.head? == some '#')

/-- The lines surviving the filter, each paired with its 0-based position
in the original stream (`enumerate` runs before the filter). -/
def ruleLines (text : List Char) : List (Nat × List Char) :=
  (rustLines text).enum.filter (fun p => lineFilter p.2)

/-- The inner fold over owner tokens: tokens that fail to classify are
silently dropped, the rest are kept in order. -/
def parseOwners (toks : List (List Char)) : List Owner :=
  toks.foldl
    (fun r t =>
      match ownerFromStr t with
      | .ok o => r ++ [o]
      | .error _ => r) []

/-- The fold body of `from_reader`, producing rules in declaration order:
the first whitespace token of a line is the pattern (a line with no
tokens contributes nothing), the remaining tokens are candidate owners,
and the stored line number is the 1-based stream position.  `none`
models the abort caused by `pattern`'s unwrap on a bad glob. -/
def buildRules : List (Nat × List Char) → Option (List (Nat × GPattern × List Owner))
  | [] => some []
  | (idx, line) :: rest =>
    match splitWs line with
    | [] => buildRules rest
    | tok :: ownerToks =>
      match pattern tok with
      | none => none
      | some pat =>
        (buildRules rest).map (fun rs => (idx + 1, pat, parseOwners ownerToks) :: rs)

/-- `from_reader`: build the rule list in declaration order, then reverse
it so that the last declared rule is tried first. -/
def from_reader (location : List Char) (text : List Char) : Option Owners :=
  (buildRules (ruleLines text)).map (fun rs => ⟨location, rs.reverse⟩)

/-! ### Invariants of the parsed table -/

theorem of_eq_findSome? (o : Owners) (path : List Char) :
    o.of path = o.paths.findSome? (ruleOf path) := rfl

theorem ruleLines_pairwise (text : List Char) :
    (ruleLines text).Pairwise (fun a b => a.1 < b.1) := by
  have h1 : (rustLines text).enum.Pairwise (fun a b => a.1 < b.1) := by
    have h := List.pairwise_lt_range (rustLines text).length
    rw [← List.enum_map_fst (rustLines text)] at h
    exact List.pairwise_map.mp h
  exact List.Pairwise.sublist (List.filter_sublist _) h1

theorem ruleLines_mem (text : List Char) (p : Nat × List Char)
    (hp : p ∈ ruleLines text) :
    (rustLines text)[p.1]? = some p.2 ∧ lineFilter p.2 = true := by
  have h := List.mem_filter.mp hp
  obtain ⟨i, line⟩ := p
  exact ⟨List.mk_mem_enum_iff_getElem?.mp h.1, h.2⟩

theorem buildRules_mem : ∀ (rl : List (Nat × List Char)) rs, buildRules rl = some rs →
    ∀ r ∈ rs, ∃ p, p ∈ rl ∧ r.1 = p.1 + 1 ∧
      ∃ tok ot, splitWs p.2 = tok :: ot ∧ pattern tok = some r.2.1 ∧
        parseOwners ot = r.2.2 := by
  intro rl
  induction rl with
  | nil =>
    intro rs h r hr
    simp only [buildRules, Option.some.injEq] at h
    subst h
    cases hr
  | cons p rest ih =>
    intro rs h r hr
    obtain ⟨idx, line⟩ := p
    unfold buildRules at h
    cases hs : splitWs line with
    | nil =>
      simp only [hs] at h
      obtain ⟨q, hq, h1, h2⟩ := ih rs h r hr
      exact ⟨q, List.mem_cons_of_mem _ hq, h1, h2⟩
    | cons tok ot =>
      simp only [hs] at h
      cases hp : pattern tok with
      | none =>
        simp only [hp] at h
        exact Option.noConfusion h
      | some pat =>
        simp only [hp] at h
        cases hb : buildRules rest with
        | none =>
          simp only [hb, Option.map_none'] at h
          exact Option.noConfusion h
        | some rs2 =>
          simp only [hb, Option.map_some', Option.some.injEq] at h
          subst h
          rcases List.mem_cons.mp hr with rfl | hr2
          · exact ⟨(idx, line), List.mem_cons_self _ _, rfl, tok, ot, hs, hp, rfl⟩
          · obtain ⟨q, hq, h1, h2⟩ := ih rs2 hb r hr2
            exact ⟨q, List.mem_cons_of_mem _ hq, h1, h2⟩

theorem buildRules_pairwise : ∀ (rl : List (Nat × List Char)) rs,
    rl.Pairwise (fun a b => a.1 < b.1) → buildRules rl = some rs →
    rs.Pairwise (fun a b => a.1 < b.1) := by
  intro rl
  induction rl with
  | nil =>
    intro rs _ h
    simp only [buildRules, Option.some.injEq] at h
    subst h
    exact List.Pairwise.nil
  | cons p rest ih =>
    intro rs hpw h
    obtain ⟨idx, line⟩ := p
    obtain ⟨hhead, hrest⟩ := List.pairwise_cons.mp hpw
    unfold buildRules at h
    cases hs : splitWs line with
    | nil =>
      simp only [hs] at h
      exact ih rs hrest h
    | cons tok ot =>
      simp only [hs] at h
      cases hp : pattern tok with
      | none =>
        simp only [hp] at h
        exact Option.noConfusion h
      | some pat =>
        simp only [hp] at h
        cases hb : buildRules rest with
        | none =>
          simp only [hb, Option.map_none'] at h
          exact Option.noConfusion h
        | some rs2 =>
          simp only [hb, Option.map_some', Option.some.injEq] at h
          subst h
          refine List.Pairwise.cons ?_ (ih rs2 hrest hb)
          intro r hr
          obtain ⟨q, hq, h1, _⟩ := buildRules_mem rest rs2 hb r hr
          have := hhead q hq
          omega

theorem from_reader_paths (loc text : List Char) (o : Owners)
    (h : from_reader loc text = some o) :
    ∃ rs, buildRules (ruleLines text) = some rs ∧ o = ⟨loc, rs.reverse⟩ := by
  unfold from_reader at h
  cases hb : buildRules (ruleLines text) with
  | none => rw [hb] at h; cases h
  | some rs =>
    rw [hb] at h
    simp only [Option.map_some', Option.some.injEq] at h
    exact ⟨rs, rfl, h.symm⟩

theorem from_reader_pairwise (loc text : List Char) (o : Owners)
    (h : from_reader loc text = some o) :
    o.paths.Pairwise (fun a b => b.1 < a.1) := by
  obtain ⟨rs, hb, rfl⟩ := from_reader_paths loc text o h
  exact List.pairwise_reverse.mpr
    (buildRules_pairwise (ruleLines text) rs (ruleLines_pairwise text) hb)

theorem findSome?_first_of_pairwise {α β : Type} {R : α → α → Prop}
    {f : α → Option β} {l : List α} {b : β}
    (hpw : l.Pairwise R) (h : l.findSome? f = some b) :
    ∃ a, a ∈ l ∧ f a = some b ∧
      ∀ x ∈ l, (f x).isSome = true → x = a ∨ R a x := by
  obtain ⟨l₁, a, l₂, rfl, hfa, hnone⟩ := List.findSome?_eq_some_iff.mp h
  refine ⟨a, by simp, hfa, ?_⟩
  intro x hx hsome
  rcases List.mem_append.mp hx with h1 | h2
  · rw [hnone x h1] at hsome
    cases hsome
  · rcases List.mem_cons.mp h2 with rfl | h3
    · exact Or.inl rfl
    · right
      have hp2 := (List.pairwise_append.mp hpw).2.1
      exact (List.pairwise_cons.mp hp2).1 x h3

/-! ### Claim theorems -/

/-- C1: for every parsed rule table and every query path, `of(path)` returns
the owner list of the rule with the highest original line number that
matches the path (directly or by implication), mirroring "last matching
pattern has most precedence"; in particular, for the file with rules
`* -> A`, `*.js -> B`, `docs/* -> C` in that order, `of("docs/app.js")`
returns C's owners. -/
theorem of_picks_highest_matching_line :
    (∀ loc text o path ows, from_reader loc text = some o →
        o.of path = some ows →
        ∃ r, r ∈ o.paths ∧ ruleOf path r = some ows ∧
          ∀ s, s ∈ o.paths → (ruleOf path s).isSome = true → s.1 ≤ r.1) ∧
    (from_reader "-".toList "* @A\n*.js @B\ndocs/* @C".toList).map
        (fun o => o.of "docs/app.js".toList) =
      some (some [.username "@C".toList]) := by
  constructor
  · intro loc text o path ows hfr hof
    have hpw := from_reader_pairwise loc text o hfr
    obtain ⟨r, hmem, hr, hall⟩ :=
      findSome?_first_of_pairwise hpw (of_eq_findSome? o path ▸ hof)
    refine ⟨r, hmem, hr, ?_⟩
    intro s hs hsome
    rcases hall s hs hsome with rfl | hlt
    · exact Nat.le_refl _
    · exact Nat.le_of_lt hlt
  · decide

/-- Witness for C1 at the single-rule file `* @A` and query `z.txt`. -/
theorem of_picks_highest_matching_line_witness :
    ∃ r, r ∈ (Owners.mk "-".toList
        [(1, ⟨"*".toList, [.anySeq]⟩, [Owner.username "@A".toList])]).paths ∧
      ruleOf "z.txt".toList r = some [Owner.username "@A".toList] ∧
      ∀ s, s ∈ (Owners.mk "-".toList
          [(1, ⟨"*".toList, [.anySeq]⟩, [Owner.username "@A".toList])]).paths →
        (ruleOf "z.txt".toList s).isSome = true → s.1 ≤ r.1 :=
  of_picks_highest_matching_line.1 "-".toList "* @A".toList
    (Owners.mk "-".toList
      [(1, ⟨"*".toList, [.anySeq]⟩, [Owner.username "@A".toList])])
    "z.txt".toList [Owner.username "@A".toList] (by decide) (by decide)

/-- C2: implied ownership — a rule whose normalized pattern does not end in
`/*` and whose pattern matches some ancestor of the query path resolves to
that rule's owners, so `of` reports a present result whenever such a rule is
stored; and after parsing the single rule line `foo/bar @doug`,
`of("foo/bar/baz.rs")` returns the list containing `@doug`. -/
theorem implied_ancestor_ownership :
    (∀ n pat ows path, endsWithSlashStar pat.original = false →
        impliedAncestor pat (matchOptsFor pat) path = true →
        ruleOf path (n, pat, ows) = some ows) ∧
    (∀ (o : Owners) r path, r ∈ o.paths →
        endsWithSlashStar r.2.1.original = false →
        impliedAncestor r.2.1 (matchOptsFor r.2.1) path = true →
        (o.of path).isSome = true) ∧
    (from_reader "-".toList "foo/bar @doug".toList).map
        (fun o => o.of "foo/bar/baz.rs".toList) =
      some (some [.username "@doug".toList]) := by
  have hgen : ∀ (n : Nat) pat ows path, endsWithSlashStar pat.original = false →
      impliedAncestor pat (matchOptsFor pat) path = true →
      ruleOf path (n, pat, ows) = some ows := by
    intro n pat ows path hends himp
    simp [ruleOf, hends, himp]
  refine ⟨hgen, ?_, by decide⟩
  intro o r path hmem hends himp
  have hr : ruleOf path r = some r.2.2 := hgen r.1 r.2.1 r.2.2 path hends himp
  rw [of_eq_findSome?]
  exact List.findSome?_isSome_iff.mpr ⟨r, hmem, by rw [hr]; rfl⟩

/-- Witness for C2 at the rule `foo/bar @doug` and query `foo/bar/baz.rs`. -/
theorem implied_ancestor_ownership_witness :
    ruleOf "foo/bar/baz.rs".toList
        (1, ⟨"**/foo/bar".toList,
          [.anyRec, .char 'f', .char 'o', .char 'o', .char '/',
            .char 'b', .char 'a', .char 'r']⟩,
          [Owner.username "@doug".toList]) =
      some [Owner.username "@doug".toList] :=
  implied_ancestor_ownership.1 1
    ⟨"**/foo/bar".toList,
      [.anyRec, .char 'f', .char 'o', .char 'o', .char '/',
        .char 'b', .char 'a', .char 'r']⟩
    [Owner.username "@doug".toList] "foo/bar/baz.rs".toList
    (by decide) (by decide)

/-- C3: a rule whose normalized pattern ends with `/*` matches only
directly (never via the ancestor walk); after parsing only `docs/* @d`,
`of("docs/file.js")` returns `@d`'s list but `of("docs/sub/file.js")`
returns no rule. -/
theorem slash_star_direct_children_only :
    (∀ n pat ows path, endsWithSlashStar pat.original = true →
        ruleOf path (n, pat, ows) =
          if pat.matchesWith (matchOptsFor pat) path then some ows else none) ∧
    (from_reader "-".toList "docs/* @d".toList).map
        (fun o => o.of "docs/file.js".toList) =
      some (some [.username "@d".toList]) ∧
    (from_reader "-".toList "docs/* @d".toList).map
        (fun o => o.of "docs/sub/file.js".toList) =
      some none := by
  refine ⟨?_, by decide, by decide⟩
  intro n pat ows path hends
  simp [ruleOf, hends]

/-- Witness for C3 at the rule `docs/* @d` and query `docs/sub/file.js`. -/
theorem slash_star_direct_children_only_witness :
    ruleOf "docs/sub/file.js".toList
        (1, ⟨"**/docs/*".toList,
          [.anyRec, .char 'd', .char 'o', .char 'c', .char 's',
            .char '/', .anySeq]⟩, [Owner.username "@d".toList]) =
      (if GPattern.matchesWith
            ⟨"**/docs/*".toList,
              [.anyRec, .char 'd', .char 'o', .char 'c', .char 's',
                .char '/', .anySeq]⟩
            (matchOptsFor
              ⟨"**/docs/*".toList,
                [.anyRec, .char 'd', .char 'o', .char 'c', .char 's',
                  .char '/', .anySeq]⟩)
            "docs/sub/file.js".toList
        then some [Owner.username "@d".toList] else none) :=
  slash_star_direct_children_only.1 1
    ⟨"**/docs/*".toList,
      [.anyRec, .char 'd', .char 'o', .char 'c', .char 's',
        .char '/', .anySeq]⟩
    [Owner.username "@d".toList] "docs/sub/file.js".toList (by decide)

/-- C4: `of` returns an absent result exactly when no stored rule matches
directly or via the ancestor walk; a matched rule carrying zero
classifiable owner tokens still yields a present, empty owner list (file
`foo/bar` with no owners: query `foo/bar/x` gives `some []`, query
`zebra.txt` gives `none`). -/
theorem unowned_distinct_from_empty_owner_list :
    (∀ (o : Owners) path, o.of path = none ↔ ∀ r ∈ o.paths, ruleOf path r = none) ∧
    (from_reader "-".toList "foo/bar".toList).map
        (fun o => o.of "foo/bar/x".toList) = some (some []) ∧
    (from_reader "-".toList "foo/bar".toList).map
        (fun o => o.of "zebra.txt".toList) = some none := by
  refine ⟨?_, by decide, by decide⟩
  intro o path
  rw [of_eq_findSome?]
  exact List.findSome?_eq_none_iff

/-- Witness for C4 at a concrete one-rule table and query. -/
theorem unowned_distinct_from_empty_owner_list_witness :
    (Owners.mk "-".toList
          [(1, ⟨"*.js".toList, [.anySeq, .char '.', .char 'j', .char 's']⟩,
            [])]).of "a.txt".toList = none ↔
      ∀ r ∈ (Owners.mk "-".toList
          [(1, ⟨"*.js".toList, [.anySeq, .char '.', .char 'j', .char 's']⟩,
            [])]).paths, ruleOf "a.txt".toList r = none :=
  unowned_distinct_from_empty_owner_list.1
    (Owners.mk "-".toList
      [(1, ⟨"*.js".toList, [.anySeq, .char '.', .char 'j', .char 's']⟩, [])])
    "a.txt".toList

/-- C6: every token that classifies as an `Owner` renders back to exactly
the original token, and re-classifying the rendered text yields the same
`Owner` value. -/
theorem owner_round_trip : ∀ s o, ownerFromStr s = .ok o →
    ownerDisplay o = s ∧ ownerFromStr (ownerDisplay o) = .ok o := by
  intro s o h
  unfold ownerFromStr at h
  split_ifs at h with ht hu he
  · simp only [Except.ok.injEq] at h
    subst h
    exact ⟨rfl, by simp [ownerFromStr, ownerDisplay, ht]⟩
  · simp only [Except.ok.injEq] at h
    subst h
    exact ⟨rfl, by simp [ownerFromStr, ownerDisplay, ht, hu]⟩
  · simp only [Except.ok.injEq] at h
    subst h
    exact ⟨rfl, by simp [ownerFromStr, ownerDisplay, ht, hu, he]⟩

/-- Witness for C6 at the team token `@org/team`. -/
theorem owner_round_trip_witness :
    ownerDisplay (Owner.team "@org/team".toList) = "@org/team".toList ∧
    ownerFromStr (ownerDisplay (Owner.team "@org/team".toList)) =
      .ok (.team "@org/team".toList) :=
  owner_round_trip "@org/team".toList (Owner.team "@org/team".toList) (by decide)

/-- C7 counterexample: the token `@` is non-empty, whitespace-free, starts
with `@` and is not a Team match, yet classification rejects it (the
`USERNAME` regex `@\S+` needs a character after the `@`), contradicting the
claim that such tokens always classify as Username. -/
theorem owner_bare_at_rejected_cex :
    (['@'] ≠ ([] : List Char)) ∧ (∀ c ∈ ['@'], rustIsWs c = false) ∧
    List.head? ['@'] = some '@' ∧ teamMatch ['@'] = false ∧
    ownerFromStr ['@'] = .error ("not an owner".toList) := by
  decide

/-- C7 (amended): classification tries Team, Username, Email in that strict
order with first match winning, and every whitespace-free token of length
at least two that starts with `@` and is not a Team match classifies as
Username. -/
theorem owner_classification_order :
    (∀ s, teamMatch s = true → ownerFromStr s = .ok (.team s)) ∧
    (∀ s, teamMatch s = false → usernameMatch s = true →
        ownerFromStr s = .ok (.username s)) ∧
    (∀ s, teamMatch s = false → usernameMatch s = false → emailMatch s = true →
        ownerFromStr s = .ok (.email s)) ∧
    (∀ s, teamMatch s = false → usernameMatch s = false → emailMatch s = false →
        ownerFromStr s = .error ("not an owner".toList)) ∧
    (∀ s, s.head? = some '@' → 2 ≤ s.length → (∀ c ∈ s, rustIsWs c = false) →
        teamMatch s = false → ownerFromStr s = .ok (.username s)) := by
  refine ⟨?_, ?_, ?_, ?_, ?_⟩
  · intro s ht
    simp [ownerFromStr, ht]
  · intro s ht hu
    simp [ownerFromStr, ht, hu]
  · intro s ht hu he
    simp [ownerFromStr, ht, hu, he]
  · intro s ht hu he
    simp [ownerFromStr, ht, hu, he]
  · intro s hhead hlen hws ht
    cases s with
    | nil => cases hhead
    | cons a t =>
      simp only [List.head?_cons, Option.some.injEq] at hhead
      subst hhead
      cases t with
      | nil => simp at hlen
      | cons c t2 =>
        have hc : rustIsWs c = false := hws c (by simp)
        have hu : usernameMatch ('@' :: c :: t2) = true := by
          simp [usernameMatch, headNonWs, hc]
        simp [ownerFromStr, ht, hu]

/-- Witness for C7 at the token `@user`. -/
theorem owner_classification_order_witness :
    ownerFromStr "@user".toList = .ok (.username "@user".toList) :=
  owner_classification_order.2.2.2.2 "@user".toList (by decide) (by decide)
    (by decide) (by decide)

/-- Transcription of the claimed normalization steps for C8, which strip
only a single leading `/` in step 2; compared against the code's
`normalizePattern`. -/
def specNormalizeSingleStrip (path : List Char) : List Char :=
  let prefixed :=
    match path with
    | '*' :: _ => path
    | '/' :: _ => path
    | _ => '*' :: '*' :: '/' :: path
  let stripped :=
    match prefixed with
    | '/' :: t => t
    | l => l
  if stripped.getLast? == some '/' then stripped ++ ['*', '*'] else stripped

/-- C8 counterexample: on the token `//a` the code's
`trim_start_matches('/')` strips both leading slashes while the claim's
steps strip only one, so the claimed steps and the code disagree. -/
theorem normalize_single_strip_cex :
    normalizePattern "//a".toList = "a".toList ∧
    specNormalizeSingleStrip "//a".toList = "/a".toList ∧
    normalizePattern "//a".toList ≠ specNormalizeSingleStrip "//a".toList := by
  decide

/-- Strip every leading `/` (step 2 as the code actually behaves). -/
def stripLeadingSlashes : List Char → List Char
  | [] => []
  | c :: t => if c == '/' then stripLeadingSlashes t else c :: t

/-- Transcription of C8's steps with step 2 amended to strip all leading
`/` characters. -/
def specNormalizeAllStrip (path : List Char) : List Char :=
  let prefixed :=
    match path with
    | '*' :: _ => path
    | '/' :: _ => path
    | _ => '*' :: '*' :: '/' :: path
  let stripped := stripLeadingSlashes prefixed
  if stripped.getLast? == some '/' then stripped ++ ['*', '*'] else stripped

theorem stripLeadingSlashes_eq_dropWhile (l : List Char) :
    stripLeadingSlashes l = l.dropWhile (fun c => c == '/') := by
  induction l with
  | nil => rfl
  | cons c t ih =>
    simp only [stripLeadingSlashes, List.dropWhile_cons]
    cases h : (c == '/') <;> simp [h, ih]

/-- C8 (amended): pattern normalization applies exactly these steps in
order: if the token starts with `*` or `/` it is left as is, otherwise
`**/` is prepended; then all leading `/` characters are stripped; then if
the resulting pattern ends with `/`, `**` is appended. -/
theorem normalize_matches_amended_steps :
    ∀ s, normalizePattern s = specNormalizeAllStrip s := by
  intro s
  simp only [normalizePattern, specNormalizeAllStrip, stripLeadingSlashes_eq_dropWhile]

/-- Whether a processed line is harmless to the parser: either it carries
no token at all, or its pattern token compiles to a glob. -/
def linePatOk (line : List Char) : Bool :=
  match splitWs line with
  | [] => true
  | tok :: _ => (pattern tok).isSome

theorem buildRules_isSome_iff : ∀ rl : List (Nat × List Char),
    (buildRules rl).isSome = true ↔ ∀ p ∈ rl, linePatOk p.2 = true := by
  intro rl
  induction rl with
  | nil => simp [buildRules]
  | cons p rest ih =>
    obtain ⟨idx, line⟩ := p
    unfold buildRules
    cases hs : splitWs line with
    | nil =>
      have hok : linePatOk line = true := by simp [linePatOk, hs]
      simp only [hs]
      rw [ih]
      constructor
      · intro h q hq
        rcases List.mem_cons.mp hq with rfl | hq2
        · exact hok
        · exact h q hq2
      · intro h q hq
        exact h q (List.mem_cons_of_mem _ hq)
    | cons tok ot =>
      simp only [hs]
      cases hp : pattern tok with
      | none =>
        simp only [hp, Option.isSome_none]
        constructor
        · intro h
          cases h
        · intro h
          have h2 := h (idx, line) (List.mem_cons_self _ _)
          simp [linePatOk, hs, hp] at h2
      | some pat =>
        simp only [hp, Option.isSome_map']
        rw [ih]
        constructor
        · intro h q hq
          rcases List.mem_cons.mp hq with rfl | hq2
          · simp [linePatOk, hs, hp]
          · exact h q hq2
        · intro h q hq
          exact h q (List.mem_cons_of_mem _ hq)

/-- C5 counterexample: the rule line `*** @a` has a pattern token whose
normalized glob `***` is rejected by `Pattern::new`, and the `unwrap` in
`pattern` aborts the whole parse — `from_reader` does not return a table. -/
theorem from_reader_bad_glob_aborts_cex :
    from_reader "-".toList "*** @a".toList = none := by decide

/-- C5 (amended): `from_reader` returns a table exactly when every kept
rule line's pattern token compiles to a glob; malformed owner tokens never
abort parsing (the condition mentions only the pattern token), but an
unparsable glob pattern aborts the parse. -/
theorem from_reader_total_iff_globs_parse :
    ∀ loc text, (from_reader loc text).isSome = true ↔
      ∀ p ∈ ruleLines text, linePatOk p.2 = true := by
  intro loc text
  unfold from_reader
  rw [Option.isSome_map']
  exact buildRules_isSome_iff (ruleLines text)

/-- Witness for C5's amended theorem at the file `* @not-an-owner-#!`. -/
theorem from_reader_total_iff_globs_parse_witness :
    (from_reader "-".toList "* @a ,bogus,".toList).isSome = true ↔
      ∀ p ∈ ruleLines "* @a ,bogus,".toList, linePatOk p.2 = true :=
  from_reader_total_iff_globs_parse "-".toList "* @a ,bogus,".toList

/-- The parsed table used in C9's witness. -/
def t9text : List Char := "# hello\nfoo @doug\n\n/lib bad docs@example.com".toList

/-- The expected table for `t9text`: rules from source lines 2 and 4,
stored last-declared first. -/
def t9tab : Owners :=
  ⟨"-".toList,
    [(4, ⟨"lib".toList, [.char 'l', .char 'i', .char 'b']⟩,
        [.email "docs@example.com".toList]),
      (2, ⟨"**/foo".toList, [.anyRec, .char 'f', .char 'o', .char 'o']⟩,
        [.username "@doug".toList])]⟩

/-- C9: a parsed table stores its rules in reverse declaration order with
strictly decreasing line numbers, and each rule's line number is the
1-based position of its source line in the original stream (blank and
comment lines included in the count). -/
theorem rules_reverse_decl_order :
    ∀ loc text o, from_reader loc text = some o →
      o.paths.Pairwise (fun a b => b.1 < a.1) ∧
      (∃ rs, buildRules (ruleLines text) = some rs ∧ o.paths = rs.reverse) ∧
      ∀ r ∈ o.paths, ∃ line, (rustLines text)[r.1 - 1]? = some line ∧
        lineFilter line = true ∧
        ∃ tok ot, splitWs line = tok :: ot ∧ pattern tok = some r.2.1 ∧
          parseOwners ot = r.2.2 := by
  intro loc text o h
  obtain ⟨rs, hb, rfl⟩ := from_reader_paths loc text o h
  refine ⟨from_reader_pairwise loc text _ h, ⟨rs, hb, rfl⟩, ?_⟩
  intro r hr
  have hr2 : r ∈ rs := List.mem_reverse.mp hr
  obtain ⟨p, hp, h1, tok, ot, hsp, hpat, hpo⟩ := buildRules_mem _ rs hb r hr2
  obtain ⟨hget, hfil⟩ := ruleLines_mem text p hp
  refine ⟨p.2, ?_, hfil, tok, ot, hsp, hpat, hpo⟩
  rw [h1]
  simpa using hget

/-- Witness for C9 at a 4-line file with a comment and a blank line. -/
theorem rules_reverse_decl_order_witness :
    t9tab.paths.Pairwise (fun a b => b.1 < a.1) ∧
    (∃ rs, buildRules (ruleLines t9text) = some rs ∧ t9tab.paths = rs.reverse) ∧
    ∀ r ∈ t9tab.paths, ∃ line, (rustLines t9text)[r.1 - 1]? = some line ∧
      lineFilter line = true ∧
      ∃ tok ot, splitWs line = tok :: ot ∧ pattern tok = some r.2.1 ∧
        parseOwners ot = r.2.2 :=
  rules_reverse_decl_order "-".toList t9text t9tab (by decide)

theorem splitWsAux_ws_nil : ∀ l : List Char, (∀ c ∈ l, rustIsWs c = true) →
    splitWsAux [] l = [] := by
  intro l
  induction l with
  | nil => intro _; rfl
  | cons c t ih =>
    intro h
    have hc := h c (by simp)
    have ih2 := ih (fun d hd => h d (List.mem_cons_of_mem _ hd))
    simp [splitWsAux, hc, ih2]

/-- C10: a non-empty line consisting only of whitespace passes the
blank/comment filter, yields no tokens, contributes no rule, and parsing
of the other lines continues normally (the file `" \t"` then `foo @doug`
produces exactly the rule from line 2). -/
theorem ws_only_line_contributes_no_rule :
    (∀ l, l ≠ [] → (∀ c ∈ l, rustIsWs c = true) →
        lineFilter l = true ∧ splitWs l = [] ∧
        ∀ (idx : Nat) rest, buildRules ((idx, l) :: rest) = buildRules rest) ∧
    from_reader "-".toList " \t\nfoo @doug".toList =
      some ⟨"-".toList,
        [(2, ⟨"**/foo".toList, [.anyRec, .char 'f', .char 'o', .char 'o']⟩,
          [.username "@doug".toList])]⟩ := by
  constructor
  · intro l hne hws
    have hsplit : splitWs l = [] := splitWsAux_ws_nil l hws
    refine ⟨?_, hsplit, ?_⟩
    · cases l with
      | nil => exact absurd rfl hne
      | cons c t =>
        have hc := hws c (by simp)
        have hch : ¬c = '#' := by
          intro he
          subst he
          exact absurd hc (by decide)
        simp [lineFilter, hch]
    · intro idx rest
      simp only [buildRules, hsplit]
  · decide

/-- Witness for C10 at the single-space line. -/
theorem ws_only_line_contributes_no_rule_witness :
    lineFilter [' '] = true ∧ splitWs [' '] = [] ∧
    ∀ (idx : Nat) rest, buildRules ((idx, [' ']) :: rest) = buildRules rest :=
  ws_only_line_contributes_no_rule.1 [' '] (by decide) (by decide)

end Codeowners
